import Mathlib

/-!
Verification of the `sliceutils` Go library against its specification.

The Go sources are shallowly embedded as Lean functions:
* Go slices become `List α`; machine indices become `Int`/`Nat` as in the source
  (`uint` parameters become `Nat`, `int` parameters become `Int`).
* A Go function that can panic (index out of range) or diverge (infinite loop)
  is embedded with an `Option` result, `none` marking the panic/divergence.
* A Go function returning `(T, error)` is embedded returning `α × Option GoErr`.
* The reflection-based nested slices (`Slice[E]`) are embedded with the inductive
  type `El` of integer scalars and arbitrarily nested sequences; a Go `Slice[T]`
  whose elements are themselves slices is a `List El` whose members are `El.seq`.
Each definition mirrors one Go function; the Go file and function are named in
its doc comment.
-/

namespace Slice

/-- The four error values declared in `sliceutils.go`. -/
inductive GoErr : Type where
  | doesNotExist : GoErr
  | isEmpty : GoErr
  | isNil : GoErr
  | outOfRange : GoErr
deriving DecidableEq, Repr

/-- The negative-index wraparound loop `for n < 0 { n += sl.Len() }` that appears
inside `Get`, `Set`, `Insert` and `IndexIs`.  When `L = 0` and `n < 0` the Go
loop never terminates, so the embedding only recurses while `0 < L`. -/
def wrapLoop (L : Nat) (n : Int) : Int :=
  if 0 < L ∧ n < 0 then wrapLoop L (n + L) else n
termination_by (-n).toNat
decreasing_by omega

/-- Index resolution shared by `Get`, `Set`, `Insert` and `IndexIs`:
`if n < 0 { for n < 0 { n += sl.Len() }; n++ }`.  Result `none` models the
infinite loop that the Go code enters when the slice is empty and `n < 0`. -/
def resolveIdx (L : Nat) (n : Int) : Option Int :=
  if n < 0 then
    if L = 0 then none else some (wrapLoop L n + 1)
  else some n

/-- `Slice.Get` from `sliceutils.go`: empty check, the off-by-one bounds check
`sl.Len() < n`, negative-index resolution, then `return sl[n], nil`.
The final indexing panics when the resolved index equals the length
(outer `none`); otherwise the Go pair `(T, error)` is returned. -/
def Get {α : Type} [Inhabited α] (sl : List α) (n : Int) : Option (α × Option GoErr) :=
  if sl.isEmpty then some (default, some GoErr.isEmpty)
  else if (sl.length : Int) < n then some (default, some GoErr.outOfRange)
  else
    (resolveIdx sl.length n).bind fun m =>
      if 0 ≤ m ∧ m.toNat < sl.length then some (sl.getD m.toNat default, none)
      else none

/-- `Slice.Set` from `modify.go`: silent return when `sl.Len() < n`,
negative-index resolution, then `sl[n] = value` (panics when the resolved
index is the length, and loops forever on an empty slice with `n < 0`). -/
def Set {α : Type} (sl : List α) (n : Int) (value : α) : Option (List α) :=
  if (sl.length : Int) < n then some sl
  else
    (resolveIdx sl.length n).bind fun m =>
      if 0 ≤ m ∧ m.toNat < sl.length then some (sl.set m.toNat value)
      else none

/-- `Slice.IndexIs` from `sliceutils.go`: negative-index resolution with no
bounds check at all, then `sl[n].Eq(value)`. -/
def IndexIs {α : Type} [Inhabited α] (eqF : α → α → Bool) (sl : List α) (n : Int)
    (value : α) : Option Bool :=
  (resolveIdx sl.length n).bind fun m =>
    if 0 ≤ m ∧ m.toNat < sl.length then some (eqF (sl.getD m.toNat default) value)
    else none

/-- `Slice.Insert` from `sliceutils.go`: `ErrOutOfRange` when `sl.Len() < n`,
negative-index resolution, then either append (`n == copy.Len()`) or rebuild
the slice pushing the new values just before position `n`. -/
def Insert {α : Type} (sl : List α) (n : Int) (v : List α) :
    Option (Option GoErr × List α) :=
  if (sl.length : Int) < n then some (some GoErr.outOfRange, sl)
  else
    (resolveIdx sl.length n).bind fun m =>
      if m.toNat = sl.length then some (none, sl ++ v)
      else some (none, sl.take m.toNat ++ v ++ sl.drop m.toNat)

/-- `Slice.Remove` from `sliceutils.go`: empty check, the off-by-one bounds
check `sl.Len() < int(n)`, then `value := copy[n]` (panics when `n` equals the
length) and deletion of position `n`.  Result pairs the Go return value with
the state of the slice after the call. -/
def Remove {α : Type} [Inhabited α] (sl : List α) (n : Nat) :
    Option ((α × Option GoErr) × List α) :=
  if sl.isEmpty then some ((default, some GoErr.isEmpty), sl)
  else if sl.length < n then some ((default, some GoErr.outOfRange), sl)
  else if n < sl.length then
    some ((sl.getD n default, none),
      if n = sl.length - 1 then sl.take n else sl.take n ++ sl.drop (n + 1))
  else none

/-- `Slice.IsPrefixOf` from `sliceutils.go`: false unless strictly shorter,
then element-wise `Eq` over the indices of the receiver.  `eqF` is the element
kind's `Eq` capability. -/
def IsPrefixOf {α : Type} (eqF : α → α → Bool) (sl other : List α) : Bool :=
  if sl.length ≥ other.length then false
  else (sl.zip other).all fun p => eqF p.1 p.2

/-- The index scan of `Slice.Compare` (`ord.go`): for each index of the
receiver, return at the first pair related by `Gt` or `Lt`.  Indexing `other`
past its end panics in Go; that is the `none` result. -/
def compareLoop {α : Type} (gtF ltF : α → α → Bool) : List α → List α → Option Ordering
  | [], _ => some Ordering.eq
  | _ :: _, [] => none
  | x :: xs, y :: ys =>
    if gtF x y then some Ordering.gt
    else if ltF x y then some Ordering.lt
    else compareLoop gtF ltF xs ys

/-- `Slice.Compare` from `ord.go`: `Equal` for two empties, `Less`/`Greater`
when one side is a strict prefix of the other, otherwise the index scan.
`Ordering.lt/eq/gt` stand for the Go constants `Less/Equal/Greater`. -/
def Compare {α : Type} (eqF gtF ltF : α → α → Bool) (sl other : List α) :
    Option Ordering :=
  if sl.isEmpty ∧ other.isEmpty then some Ordering.eq
  else if IsPrefixOf eqF sl other then some Ordering.lt
  else if IsPrefixOf eqF other sl then some Ordering.gt
  else compareLoop gtF ltF sl other

/-- The `any`-typed comparand of the slice comparison methods in `ord.go`:
either a slice of the receiver's own kind (`some`) or a value of any other,
incomparable kind (`none`), which every type switch sends to `default: return
false`. -/
def Operand (α : Type) : Type := Option (List α)

/-- `Slice.Gt` from `ord.go`: `sl.Compare(other) == Greater` when the operand
is a slice of the same kind, `false` otherwise. -/
def Gt {α : Type} (eqF gtF ltF : α → α → Bool) (sl : List α) (other : Operand α) :
    Option Bool :=
  match other with
  | some t => (Compare eqF gtF ltF sl t).map fun c => c = Ordering.gt
  | none => some false

/-- `Slice.Lt` from `ord.go`: `sl.Compare(other) == Less` when the operand is a
slice of the same kind, `false` otherwise. -/
def Lt {α : Type} (eqF gtF ltF : α → α → Bool) (sl : List α) (other : Operand α) :
    Option Bool :=
  match other with
  | some t => (Compare eqF gtF ltF sl t).map fun c => c = Ordering.lt
  | none => some false

/-- `Slice.Ge` from `ord.go`: `sl.Compare(other) != Less` when the operand is a
slice of the same kind, `false` otherwise. -/
def Ge {α : Type} (eqF gtF ltF : α → α → Bool) (sl : List α) (other : Operand α) :
    Option Bool :=
  match other with
  | some t => (Compare eqF gtF ltF sl t).map fun c => ¬ c = Ordering.lt
  | none => some false

/-- `Slice.Le` from `ord.go`: `sl.Compare(other) != Greater` when the operand
is a slice of the same kind, `false` otherwise. -/
def Le {α : Type} (eqF gtF ltF : α → α → Bool) (sl : List α) (other : Operand α) :
    Option Bool :=
  match other with
  | some t => (Compare eqF gtF ltF sl t).map fun c => ¬ c = Ordering.gt
  | none => some false

/-- `Int.Eq` from `eq.go` applied to a comparand of the same kind. -/
def intEq (a b : Int) : Bool := a = b

/-- `Int.Gt` from `ord.go` applied to a comparand of the same kind. -/
def intGt (a b : Int) : Bool := a > b

/-- `Int.Lt` from `ord.go` applied to a comparand of the same kind. -/
def intLt (a b : Int) : Bool := a < b

/-- `Bool.Eq` from `eq.go` applied to a comparand of the same kind. -/
def boolEq (a b : Bool) : Bool := a = b

/-- `Bool.Gt` from `ord.go`: `bool(v) && !vt`. -/
def boolGt (a b : Bool) : Bool := a && !b

/-- `Bool.Lt` from `ord.go`: `!bool(v) && vt`. -/
def boolLt (a b : Bool) : Bool := !a && b

/-- Go's `sl[i]` read, as used inside `partition`, `quickSort` and `merge`:
positions touched by the sort are always in bounds, so the default value of an
out-of-range read is never observed. -/
def getE {α : Type} [Inhabited α] (l : List α) (i : Nat) : α := l.getD i default

/-- Go's parallel assignment `sl[i], sl[j] = sl[j], sl[i]`. -/
def swapL {α : Type} [Inhabited α] (l : List α) (i j : Nat) : List α :=
  (l.set i (getE l j)).set j (getE l i)

/-- The `for j := low; j < high; j++` loop of `Slice.partition` (`modify.go`):
`k` is `i + 1` for the source's running index `i` (which starts at `low - 1`),
so the source's `i++; swap(i, j)` is `swap(k, j); k++` here. -/
def partLoop {α : Type} [Inhabited α] [LT α] [DecidableRel (α := α) (· < ·)]
    (l : List α) (pivot : α) (k j high : Nat) : List α × Nat :=
  if j < high then
    if getE l j < pivot then partLoop (swapL l k j) pivot (k + 1) (j + 1) high
    else partLoop l pivot k (j + 1) high
  else (l, k)
termination_by high - j

/-- `Slice.partition` from `modify.go`: Lomuto partition with `sl[high]` as the
pivot, returning the updated slice and the pivot's final position `i + 1`. -/
def partition {α : Type} [Inhabited α] [LT α] [DecidableRel (α := α) (· < ·)]
    (l : List α) (low high : Nat) : List α × Nat :=
  let pivot := getE l high
  let r := partLoop l pivot low low high
  (swapL r.1 r.2 high, r.2)

/-- `Slice.quickSort` from `modify.go`: recurse on both sides of the pivot
while `low < high`. -/
def quickSort {α : Type} [Inhabited α] [LT α] [DecidableRel (α := α) (· < ·)]
    (l : List α) (low high : Nat) : List α :=
  if low < high then
    let r := partition l low high
    quickSort (quickSort r.1 low (r.2 - 1)) (r.2 + 1) high
  else l
termination_by high - low
decreasing_by
· have hb : ∀ (l₀ : List α) (pivot : α) (k j h₀ : Nat),
      k ≤ (partLoop l₀ pivot k j h₀).2 ∧ (partLoop l₀ pivot k j h₀).2 ≤ k + (h₀ - j) := by
    intro l₀ pivot k j h₀
    induction l₀, pivot, k, j, h₀ using partLoop.induct with
    | case1 l pivot k j high hj hlt ih => rw [partLoop, if_pos hj, if_pos hlt]; omega
    | case2 l pivot k j high hj hlt ih => rw [partLoop, if_pos hj, if_neg hlt]; omega
    | case3 l pivot k j high hj => rw [partLoop, if_neg hj]; omega
  have hb2 := hb l (getE l high) low low high
  simp only [partition] at *
  omega
· have hb : ∀ (l₀ : List α) (pivot : α) (k j h₀ : Nat),
      k ≤ (partLoop l₀ pivot k j h₀).2 ∧ (partLoop l₀ pivot k j h₀).2 ≤ k + (h₀ - j) := by
    intro l₀ pivot k j h₀
    induction l₀, pivot, k, j, h₀ using partLoop.induct with
    | case1 l pivot k j high hj hlt ih => rw [partLoop, if_pos hj, if_pos hlt]; omega
    | case2 l pivot k j high hj hlt ih => rw [partLoop, if_pos hj, if_neg hlt]; omega
    | case3 l pivot k j high hj => rw [partLoop, if_neg hj]; omega
  have hb2 := hb l (getE l high) low low high
  simp only [partition] at *
  omega

/-- `Slice.Sort` from `modify.go`: `sl.quickSort(0, sl.Len()-1)`.  (Named with
a prime because `Sort` is a Lean keyword.) -/
def Sort' {α : Type} [Inhabited α] [LT α] [DecidableRel (α := α) (· < ·)]
    (l : List α) : List α :=
  quickSort l 0 (l.length - 1)

/-- `Slice.IsSorted` from `modify.go`: scan adjacent pairs and return `false`
at the first pair with `sl.Get(i).Lt(sl.Get(i + 1))` (note: `Lt`, exactly as
in the source, although its own doc comment promises ascending order). -/
def IsSorted {α : Type} [LT α] [DecidableRel (α := α) (· < ·)] : List α → Bool
  | a :: b :: rest => if a < b then false else IsSorted (b :: rest)
  | _ => true

/-- An element of a possibly-nested slice: an integer scalar or a nested
slice.  This is the embedding of the reflection-based `Slice[E]` values of
`modify.go`, instantiated at the `Int` element kind. -/
inductive El : Type where
  | int : Int → El
  | seq : List El → El

mutual

/-- `Eq` from `eq.go` at the `El` kinds: `Int.Eq` compares the integers,
`Slice.Eq` checks the lengths and compares element-wise, and the type-switch
`default` branch answers `false` for mismatched kinds. -/
def elEq : El → El → Bool
  | El.int a, El.int b => a == b
  | El.seq a, El.seq b => elEqList a b
  | _, _ => false

/-- The element-wise loop of `Slice.Eq` from `eq.go` (the length check is the
`_, _` fallthrough). -/
def elEqList : List El → List El → Bool
  | [], [] => true
  | x :: xs, y :: ys => elEq x y && elEqList xs ys
  | _, _ => false

end

mutual

/-- Decidability of equality on `El` (the `deriving` handler does not support
nested inductives); infrastructure only, not part of the embedding. -/
def elDecEq : (a b : El) → Decidable (a = b)
  | El.int a, El.int b =>
    if h : a = b then isTrue (by rw [h]) else isFalse (by simpa using h)
  | El.int _, El.seq _ => isFalse (fun h => El.noConfusion h)
  | El.seq _, El.int _ => isFalse (fun h => El.noConfusion h)
  | El.seq a, El.seq b =>
    match elDecEqList a b with
    | isTrue h => isTrue (by rw [h])
    | isFalse h => isFalse (by simpa using h)

/-- Decidability of equality on `List El`; infrastructure only. -/
def elDecEqList : (a b : List El) → Decidable (a = b)
  | [], [] => isTrue rfl
  | [], _ :: _ => isFalse (by simp)
  | _ :: _, [] => isFalse (by simp)
  | x :: xs, y :: ys =>
    match elDecEq x y, elDecEqList xs ys with
    | isTrue h1, isTrue h2 => isTrue (by rw [h1, h2])
    | isFalse h1, _ => isFalse (by simp [h1])
    | _, isFalse h2 => isFalse (by simp [h2])

end

instance : DecidableEq El := elDecEq

/-- `Slice.IsNested` from `sliceutils.go`: empty slices are not nested,
otherwise inspect (by reflection) whether the first element is a slice. -/
def IsNested : List El → Bool
  | El.seq _ :: _ => true
  | _ => false

/-- `reflect.ValueOf(v)` viewed as a slice, as `Slice.Flatten` does for every
element of a nested slice: `none` models the panic of `Index` on a non-slice
value (unreachable in Go, where a nested `Slice[T]` holds slices only). -/
def asSeq : El → Option (List El)
  | El.seq l => some l
  | El.int _ => none

/-- The double loop of `Slice.Flatten` (`modify.go`) over a nested slice:
append every element of every inner slice, in order. -/
def seqElems : List El → Option (List El)
  | [] => some []
  | v :: rest => (asSeq v).bind fun inner => (seqElems rest).map fun r => inner ++ r

/-- `Slice.Flatten` from `modify.go`: when nested, concatenate the elements of
every inner slice in order; otherwise copy the elements unchanged. -/
def Flatten (sl : List El) : Option (List El) :=
  if IsNested sl then seqElems sl else some sl

/-- `Slice.FlattenN` from `modify.go`, verbatim: if the slice is nested and
`n > 0`, return a copy *without* flattening; otherwise recurse on
`sl.Flatten().FlattenN(n - 1)`, where `n - 1` underflows to `2^64 - 1` when
`n == 0` (`n` is `uint`).  The recursion has no base case in the source, so
the embedding carries explicit `fuel`; `none` means the Go code has not
returned after `fuel` recursive calls (for no amount of fuel does it return
on a non-nested slice). -/
def FlattenN (fuel : Nat) (sl : List El) (n : Nat) : Option (List El) :=
  match fuel with
  | 0 => none
  | fuel + 1 =>
    if IsNested sl ∧ 0 < n then some sl
    else (Flatten sl).bind fun fl => FlattenN fuel fl (if n = 0 then 2 ^ 64 - 1 else n - 1)

/-- The buffer loop of `Slice.Split` (`modify.go`): break at every element
equal to `sep` (dropping it), pushing the buffer; after the loop the final
buffer is appended. -/
def splitLoop (sep : El) (buf : List El) : List El → List El
  | [] => [El.seq buf]
  | v :: rest =>
    if elEq v sep then El.seq buf :: splitLoop sep [] rest
    else splitLoop sep (buf ++ [v]) rest

/-- `Slice.Split` from `modify.go`: a slice that does not contain the
separator is returned as a flat copy (each element pushed directly). -/
def Split (sep : El) (sl : List El) : List El :=
  if ¬ sl.any fun v => elEq v sep then sl
  else splitLoop sep [] sl

/-- The loop of `Slice.SplitN` (`modify.go`): like `Split`, but after pushing
a partition decrement `n`, and once `n <= 1` return `append(sp, sl[i:])` —
note `sl[i:]` starts at the separator just consumed, exactly as the source
does. -/
def splitNLoop (sep : El) : Nat → List El → List El → List El
  | _, buf, [] => [El.seq buf]
  | n, buf, v :: rest =>
    if elEq v sep then
      if n - 1 ≤ 1 then [El.seq buf, El.seq (v :: rest)]
      else El.seq buf :: splitNLoop sep (n - 1) [] rest
    else splitNLoop sep n (buf ++ [v]) rest

/-- `Slice.SplitN` from `modify.go`. -/
def SplitN (n : Nat) (sep : El) (sl : List El) : List El :=
  if n ≤ 1 ∨ ¬ sl.any fun v => elEq v sep then Split sep sl
  else splitNLoop sep n [] sl

/-- `Slice.SplitOnce` from `modify.go`: `sl.SplitN(2, sep)`. -/
def SplitOnce (sep : El) (sl : List El) : List El :=
  SplitN 2 sep sl

/-- The buffer loop of `Slice.SplitBy` (`modify.go`): break wherever the
predicate holds. -/
def splitByLoop (f : El → Bool) (buf : List El) : List El → List (List El)
  | [] => [buf]
  | v :: rest =>
    if f v then buf :: splitByLoop f [] rest
    else splitByLoop f (buf ++ [v]) rest

/-- `Slice.SplitBy` from `modify.go`: partition at every element satisfying
`f`; a single-partition result is returned flattened. -/
def SplitBy (f : El → Bool) (sl : List El) : Option (List El) :=
  let sp := splitByLoop f [] sl
  if sp.length = 1 then Flatten (sp.map El.seq)
  else some (sp.map El.seq)

/-- The loop of `Slice.Chunk` (`modify.go`): push the running chunk when the
chunk size is reached (`(i+1) % size == 0`) or at the last element. -/
def chunkLoop (size len : Nat) : Nat → List El → List El → List (List El)
  | _, _, [] => []
  | i, chunk, v :: rest =>
    if (i + 1) % size = 0 ∨ i = len - 1 then
      (chunk ++ [v]) :: chunkLoop size len (i + 1) [] rest
    else chunkLoop size len (i + 1) (chunk ++ [v]) rest

/-- `Slice.Chunk` from `modify.go`: panic on `size == 0` (`none`), empty in
empty out, otherwise the chunk loop; a single-chunk result is returned
flattened. -/
def Chunk (size : Nat) (sl : List El) : Option (List El) :=
  if size = 0 then none
  else if sl.isEmpty then some []
  else
    let chunks := chunkLoop size sl.length 0 [] sl
    if chunks.length = 1 then Flatten (chunks.map El.seq)
    else some (chunks.map El.seq)

/-- The loop of `Slice.ChunkBy` (`modify.go`): starting from the second
element, open a new chunk whenever the predicate over the previous/current
pair is false. -/
def chunkByLoop (f : El → El → Bool) : El → List El → List El → List (List El)
  | _, chunk, [] => [chunk]
  | prev, chunk, v :: rest =>
    if ¬ f prev v then chunk :: chunkByLoop f v [v] rest
    else chunkByLoop f v (chunk ++ [v]) rest

/-- `Slice.ChunkBy` from `modify.go`: empty in, empty out; otherwise the chunk
loop seeded with the first element; a single-chunk result is returned
flattened. -/
def ChunkBy (f : El → El → Bool) (sl : List El) : Option (List El) :=
  match sl with
  | [] => some []
  | v :: rest =>
    let chunks := chunkByLoop f v [v] rest
    if chunks.length = 1 then Flatten (chunks.map El.seq)
    else some (chunks.map El.seq)

/-- Specification-level chunking (the wording of the `Chunk` claim):
non-overlapping groups of `size` consecutive elements, the last group keeping
whatever remains.  Used to state what the partitions of `Chunk` are. -/
def chunksSpec {α : Type} : Nat → List α → List (List α)
  | _, [] => []
  | 0, _ :: _ => []
  | size + 1, x :: xs =>
    (x :: xs).take (size + 1) :: chunksSpec (size + 1) ((x :: xs).drop (size + 1))
termination_by _ l => l.length
decreasing_by
  simp only [List.length_drop, List.length_cons]
  omega

/-! ## Theorems -/

/-- The wraparound loop adds the length until the index is non-negative, which
is exactly the Euclidean remainder when the index is negative. -/
theorem wrapLoop_eq (L : Nat) (hL : 0 < L) (n : Int) :
    wrapLoop L n = if n < 0 then n % L else n := by
  induction n using wrapLoop.induct (L := L) with
  | case1 n h ih =>
    rw [wrapLoop, if_pos h, ih]
    have hL' : (0 : Int) < L := by exact_mod_cast h.1
    have hmod : (n + L) % L = n % L := by
      have h1 := Int.add_mul_emod_self_left (a := n) (b := (L : Int)) (c := 1)
      rw [mul_one] at h1
      exact h1
    by_cases h2 : n + L < 0
    · rw [if_pos h2, if_pos h.2, hmod]
    · rw [if_neg h2, if_pos h.2, ← hmod]
      exact (Int.emod_eq_of_lt (by omega) (by omega)).symm
  | case2 n h =>
    rw [wrapLoop, if_neg h]
    have hn : ¬ n < 0 := by tauto
    rw [if_neg hn]

/-- Claim C1 counterexample: the claim says index `-(L+1)` resolves to
position 0, so on `[10, 20]` (length 2) index `-3` would act on the element at
position 0 and `Get` would return `10`.  In the code `-3` resolves to
`(-3 % 2) + 1 = 2`, i.e. to position `L`, and the access `sl[2]` panics. -/
theorem claim_C1_counterexample :
    Get [(10 : Int), 20] (-3) = none ∧
    Get [(10 : Int), 20] (-3) ≠ some (10, none) ∧
    resolveIdx 2 (-3) = some 2 := by
  have h2 : wrapLoop 2 (-3) = 1 := by
    rw [wrapLoop_eq 2 (by norm_num) (-3)]
    decide
  refine ⟨?_, ?_, ?_⟩ <;> simp [Get, resolveIdx, h2]

/-- Claim C1, amended: for length `L >= 1` and `n < 0` the four operations
resolve `n` by repeatedly adding `L` and then adding 1, i.e. to position
`n % L + 1`, which lies in `[1, L]`: index `-L` resolves to position 1, but
index `-(L+1)` resolves to position `L` (not 0).  The operation acts at the
resolved position when it is a valid index (`< L`): `Get` reads it, `Set`
writes it, `IndexIs` compares it, `Insert` inserts before it; when the
resolved position equals `L` (exactly when `n = -1 mod L`), `Insert` appends
at the end while `Get`, `Set` and `IndexIs` panic with index out of range. -/
theorem claim_C1_amended {α : Type} [Inhabited α] (eqF : α → α → Bool)
    (sl : List α) (hL : 1 ≤ sl.length) (n : Int) (hn : n < 0) (v : α)
    (vs : List α) :
    resolveIdx sl.length n = some (n % sl.length + 1) ∧
    resolveIdx sl.length (-(sl.length : Int)) = some 1 ∧
    resolveIdx sl.length (-(sl.length : Int) - 1) = some sl.length ∧
    ((n % sl.length).toNat + 1 < sl.length →
      Get sl n = some (sl.getD ((n % sl.length).toNat + 1) default, none) ∧
      Set sl n v = some (sl.set ((n % sl.length).toNat + 1) v) ∧
      IndexIs eqF sl n v =
        some (eqF (sl.getD ((n % sl.length).toNat + 1) default) v) ∧
      Insert sl n vs = some (none, sl.take ((n % sl.length).toNat + 1) ++ vs ++
        sl.drop ((n % sl.length).toNat + 1))) ∧
    ((n % sl.length).toNat + 1 = sl.length →
      Get sl n = none ∧ Set sl n v = none ∧ IndexIs eqF sl n v = none ∧
      Insert sl n vs = some (none, sl ++ vs)) := by
  have hL0 : sl.length ≠ 0 := by omega
  have hLpos : (0 : Int) < sl.length := by exact_mod_cast Nat.pos_of_ne_zero hL0
  have hmod0 : 0 ≤ n % sl.length := Int.emod_nonneg n (by exact_mod_cast hL0)
  have hmodlt : n % sl.length < sl.length := Int.emod_lt_of_pos n hLpos
  have hres : ∀ m : Int, m < 0 → resolveIdx sl.length m = some (m % sl.length + 1) := by
    intro m hm
    rw [resolveIdx, if_pos hm, if_neg hL0, wrapLoop_eq _ (Nat.pos_of_ne_zero hL0), if_pos hm]
  have hresn := hres n hn
  have hne : sl.isEmpty = false := by
    cases sl with
    | nil => simp at hL
    | cons a l => rfl
  have hnlen : ¬ (sl.length : Int) < n := by omega
  have htn : (n % sl.length + 1).toNat = (n % sl.length).toNat + 1 := by omega
  have h0m : 0 ≤ n % sl.length + 1 := by omega
  refine ⟨hresn, ?_, ?_, ?_, ?_⟩
  · rw [hres (-(sl.length : Int)) (by omega)]
    congr 1
    have h2 : (-(sl.length : Int)) % sl.length = 0 := by
      have h1 := Int.add_mul_emod_self_left (a := 0) (b := (sl.length : Int)) (c := -1)
      have h8 : (0 : Int) + (sl.length : Int) * -1 = -(sl.length : Int) := by ring
      rw [h8, Int.zero_emod] at h1
      exact h1
    omega
  · rw [hres (-(sl.length : Int) - 1) (by omega)]
    congr 1
    have h1 : (-(sl.length : Int) - 1) % sl.length = (-1 : Int) % sl.length := by
      have h2 := Int.add_mul_emod_self_left (a := -1) (b := (sl.length : Int)) (c := -1)
      have h3 : (-1 : Int) + (sl.length : Int) * -1 = -(sl.length : Int) - 1 := by ring
      rw [h3] at h2
      exact h2
    have h4 : ((sl.length : Int) - 1) % sl.length = ((-1 : Int)) % sl.length := by
      have h5 := Int.add_mul_emod_self_left (a := (sl.length : Int) - 1)
        (b := (sl.length : Int)) (c := -1)
      have h6 : (sl.length : Int) - 1 + (sl.length : Int) * -1 = -1 := by ring
      rw [h6] at h5
      exact h5.symm
    have h7 : ((sl.length : Int) - 1) % sl.length = (sl.length : Int) - 1 :=
      Int.emod_eq_of_lt (by omega) (by omega)
    omega
  · intro hlt
    have hpos : 0 ≤ n % (sl.length : Int) + 1 ∧
        (n % (sl.length : Int) + 1).toNat < sl.length := by omega
    have hneq : ¬ (n % (sl.length : Int) + 1).toNat = sl.length := by omega
    refine ⟨?_, ?_, ?_, ?_⟩
    · rw [Get, if_neg (by simp [hne]), if_neg hnlen, hresn, Option.some_bind,
        if_pos hpos, htn]
    · rw [Set, if_neg hnlen, hresn, Option.some_bind, if_pos hpos, htn]
    · rw [IndexIs, hresn, Option.some_bind, if_pos hpos, htn]
    · rw [Insert, if_neg hnlen, hresn, Option.some_bind, if_neg hneq, htn]
  · intro heq
    have hneg : ¬ (0 ≤ n % (sl.length : Int) + 1 ∧
        (n % (sl.length : Int) + 1).toNat < sl.length) := by omega
    have heq2 : (n % (sl.length : Int) + 1).toNat = sl.length := by omega
    refine ⟨?_, ?_, ?_, ?_⟩
    · rw [Get, if_neg (by simp [hne]), if_neg hnlen, hresn, Option.some_bind,
        if_neg hneg]
    · rw [Set, if_neg hnlen, hresn, Option.some_bind, if_neg hneg]
    · rw [IndexIs, hresn, Option.some_bind, if_neg hneg]
    · rw [Insert, if_neg hnlen, hresn, Option.some_bind, if_pos heq2]

/-- Witness for the amended claim C1, on the slice `[10, 20, 30]`: index `-3`
(that is `-L`) resolves to position 1 and is read there; index `-4` (that is
`-(L+1)`) resolves to position 3 and panics. -/
theorem claim_C1_witness :
    resolveIdx 3 (-3) = some 1 ∧
    resolveIdx 3 (-4) = some 3 ∧
    Get [(10 : Int), 20, 30] (-3) = some (20, none) ∧
    Get [(10 : Int), 20, 30] (-4) = none := by
  have h1 := claim_C1_amended intEq [(10 : Int), 20, 30] (by norm_num) (-3)
    (by norm_num) 0 []
  have h2 := claim_C1_amended intEq [(10 : Int), 20, 30] (by norm_num) (-4)
    (by norm_num) 0 []
  refine ⟨?_, ?_, ?_, ?_⟩
  · have := h1.1
    norm_num at this ⊢
    convert this using 2
  · have := h2.1
    norm_num at this ⊢
    convert this using 2
  · have := (h1.2.2.2.1 (by decide)).1
    norm_num at this
    convert this using 2
  · exact (h2.2.2.2.2 (by decide)).1

/-- Claim C9 counterexample: the bounds checks read `sl.Len() < n`, so for a
slice of length 1 the index `n = 1` slips past them and the raw access
`sl[1]` panics — `Get` and `Remove` do not return the default value paired
with the out-of-range error there, contrary to the claim for all `n >= L`. -/
theorem claim_C9_counterexample :
    Get [(5 : Int)] 1 = none ∧
    Get [(5 : Int)] 1 ≠ some (0, some GoErr.outOfRange) ∧
    Remove [(5 : Int)] 1 = none ∧
    Remove [(5 : Int)] 1 ≠ some ((0, some GoErr.outOfRange), [5]) := by
  refine ⟨rfl, by decide, rfl, by decide⟩

/-- Claim C9, amended: for a non-empty slice of length `L`, `Get(n)` and
`Remove(n)` return the kind's default value paired with `ErrOutOfRange` (and
`Remove` leaves the slice unchanged) only for `n > L`; at `n = L` the bounds
check `Len() < n` passes and the element access panics (index out of range);
for `n < L` neither reports an error: `Get` returns the element and `Remove`
removes and returns it. -/
theorem claim_C9_amended {α : Type} [Inhabited α] (sl : List α) (h : sl ≠ [])
    (n : Nat) :
    (sl.length < n →
      Get sl n = some (default, some GoErr.outOfRange) ∧
      Remove sl n = some ((default, some GoErr.outOfRange), sl)) ∧
    (n = sl.length → Get sl n = none ∧ Remove sl n = none) ∧
    (n < sl.length →
      Get sl n = some (sl.getD n default, none) ∧
      Remove sl n = some ((sl.getD n default, none), sl.take n ++ sl.drop (n + 1))) := by
  have hne : sl.isEmpty = false := by
    cases sl with
    | nil => exact absurd rfl h
    | cons a l => rfl
  have hres : resolveIdx sl.length (n : Int) = some ((n : Int)) := by
    rw [resolveIdx, if_neg (by omega)]
  refine ⟨?_, ?_, ?_⟩
  · intro hlt
    constructor
    · rw [Get, if_neg (by simp [hne]), if_pos (by exact_mod_cast hlt)]
    · rw [Remove, if_neg (by simp [hne]), if_pos hlt]
  · intro heq
    constructor
    · rw [Get, if_neg (by simp [hne]), if_neg (by omega), hres, Option.some_bind,
        if_neg (by omega)]
    · rw [Remove, if_neg (by simp [hne]), if_neg (by omega), if_neg (by omega)]
  · intro hlt
    constructor
    · rw [Get, if_neg (by simp [hne]), if_neg (by omega), hres, Option.some_bind,
        if_pos ⟨by omega, by simpa using hlt⟩]
      simp
    · rw [Remove, if_neg (by simp [hne]), if_neg (by omega), if_pos hlt]
      by_cases hlast : n = sl.length - 1
      · rw [if_pos hlast]
        have hdrop : sl.drop (n + 1) = [] := by
          apply List.drop_eq_nil_of_le
          omega
        rw [hdrop, List.append_nil]
      · rw [if_neg hlast]

/-- Witness for the amended claim C9 on `[5, 7]`: `n = 3` errors, `n = 2`
panics, `n = 1` succeeds. -/
theorem claim_C9_witness :
    Get [(5 : Int), 7] 3 = some (0, some GoErr.outOfRange) ∧
    Remove [(5 : Int), 7] 3 = some ((0, some GoErr.outOfRange), [5, 7]) ∧
    Get [(5 : Int), 7] 2 = none ∧
    Remove [(5 : Int), 7] 2 = none ∧
    Get [(5 : Int), 7] 1 = some (7, none) ∧
    Remove [(5 : Int), 7] 1 = some ((7, none), [5]) := by
  have h3 := claim_C9_amended [(5 : Int), 7] (by decide) 3
  have h2 := claim_C9_amended [(5 : Int), 7] (by decide) 2
  have h1 := claim_C9_amended [(5 : Int), 7] (by decide) 1
  refine ⟨(h3.1 (by decide)).1, (h3.1 (by decide)).2,
    (h2.2.1 (by decide)).1, (h2.2.1 (by decide)).2,
    ?_, ?_⟩
  · have := (h1.2.2 (by decide)).1
    simpa using this
  · have := (h1.2.2 (by decide)).2
    simpa using this

/-- The index scan of `Compare` returns `Equal` on two copies of the same
slice, provided the element `Gt`/`Lt` capabilities are converses of each other
and mutually exclusive (both hold for every element kind in the source). -/
theorem compareLoop_self {α : Type} (gtF ltF : α → α → Bool)
    (hconv : ∀ x y, gtF x y = ltF y x)
    (hexcl : ∀ x y, ¬(gtF x y = true ∧ ltF x y = true)) (s : List α) :
    compareLoop gtF ltF s s = some Ordering.eq := by
  induction s with
  | nil => rfl
  | cons x xs ih =>
    have hg : gtF x x = false := by
      by_cases hgx : gtF x x = true
      · have hlx : ltF x x = true := by rw [← hconv x x]; exact hgx
        exact absurd ⟨hgx, hlx⟩ (hexcl x x)
      · simpa using hgx
    have hl : ltF x x = false := by rw [← hconv x x]; exact hg
    rw [compareLoop, hg, hl]
    simpa using ih

/-- Antisymmetry of the index scan of `Compare`: it answers `Greater` on
`(s, t)` exactly when it answers `Less` on `(t, s)`, under the same two
assumptions on the element capabilities.  A panic on one side (`none`) is
never `Greater` or `Less`, so the equivalence also covers the asymmetric
panic cases. -/
theorem compareLoop_antisym {α : Type} (gtF ltF : α → α → Bool)
    (hconv : ∀ x y, gtF x y = ltF y x)
    (hexcl : ∀ x y, ¬(gtF x y = true ∧ ltF x y = true)) :
    ∀ s t : List α,
      (compareLoop gtF ltF s t = some Ordering.gt ↔
        compareLoop gtF ltF t s = some Ordering.lt)
  | [], [] => by rw [compareLoop]; simp [compareLoop]
  | [], y :: ys => by
    rw [compareLoop]
    simp only [compareLoop]
    constructor
    · intro h
      simp at h
    · intro h
      simp at h
  | x :: xs, [] => by
    rw [compareLoop]
    simp only [compareLoop]
    constructor
    · intro h
      simp at h
    · intro h
      simp at h
  | x :: xs, y :: ys => by
    rw [compareLoop, compareLoop]
    by_cases hg : gtF x y = true
    · have hl : ltF x y = false := by
        by_cases hlx : ltF x y = true
        · exact absurd ⟨hg, hlx⟩ (hexcl x y)
        · simpa using hlx
      have hg2 : gtF y x = false := by rw [hconv y x]; exact hl
      have hl2 : ltF y x = true := by rw [← hconv x y]; exact hg
      rw [hg, hg2, hl2]
      simp
    · have hg' : gtF x y = false := by simpa using hg
      have hl2 : ltF y x = false := by rw [← hconv x y]; exact hg'
      by_cases hl : ltF x y = true
      · have hg2 : gtF y x = true := by rw [hconv y x]; exact hl
        rw [hg', hl, hg2]
        simp
      · have hl' : ltF x y = false := by simpa using hl
        have hg2 : gtF y x = false := by rw [hconv y x]; exact hl'
        rw [hg', hl', hg2, hl2]
        simp only [Bool.false_eq_true, if_false]
        exact compareLoop_antisym gtF ltF hconv hexcl xs ys

/-- Claim C2: for every sequence `s`, `s.Compare(s)` returns `Equal`, and
`Compare` is antisymmetric: `s.Compare(t) == Greater` iff
`t.Compare(s) == Less`.  The element `Gt`/`Lt` capabilities are assumed to be
converses (`x.Gt(y) = y.Lt(x)`) and mutually exclusive, which every per-kind
implementation in `ord.go` satisfies. -/
theorem claim_C2 {α : Type} (eqF gtF ltF : α → α → Bool)
    (hconv : ∀ x y, gtF x y = ltF y x)
    (hexcl : ∀ x y, ¬(gtF x y = true ∧ ltF x y = true)) (s t : List α) :
    Compare eqF gtF ltF s s = some Ordering.eq ∧
    (Compare eqF gtF ltF s t = some Ordering.gt ↔
      Compare eqF gtF ltF t s = some Ordering.lt) := by
  have key : ∀ u v : List α, ¬ (u.isEmpty = true ∧ v.isEmpty = true) →
      IsPrefixOf eqF u v = false → IsPrefixOf eqF v u = false →
      Compare eqF gtF ltF u v = compareLoop gtF ltF u v := by
    intro u v h1 h2 h3
    rw [Compare, if_neg h1, h2, h3]
    simp
  have keyLt : ∀ u v : List α, ¬ (u.isEmpty = true ∧ v.isEmpty = true) →
      IsPrefixOf eqF u v = true →
      Compare eqF gtF ltF u v = some Ordering.lt := by
    intro u v h1 h2
    rw [Compare, if_neg h1, h2]
    simp
  have keyGt : ∀ u v : List α, ¬ (u.isEmpty = true ∧ v.isEmpty = true) →
      IsPrefixOf eqF u v = false → IsPrefixOf eqF v u = true →
      Compare eqF gtF ltF u v = some Ordering.gt := by
    intro u v h1 h2 h3
    rw [Compare, if_neg h1, h2, h3]
    simp
  have hrefl : ∀ u : List α, Compare eqF gtF ltF u u = some Ordering.eq := by
    intro u
    by_cases hu : u.isEmpty = true
    · rw [Compare, if_pos ⟨hu, hu⟩]
    · have hpre : IsPrefixOf eqF u u = false := by
        rw [IsPrefixOf, if_pos (le_refl _)]
      rw [key u u (by tauto) hpre hpre]
      exact compareLoop_self gtF ltF hconv hexcl u
  refine ⟨hrefl s, ?_⟩
  rcases Nat.lt_trichotomy s.length t.length with hlen | hlen | hlen
  · have ht : t.isEmpty = false := by
      cases t with
      | nil => simp at hlen
      | cons a l => rfl
    have hse : ¬ (s.isEmpty = true ∧ t.isEmpty = true) := by simp [ht]
    have hse2 : ¬ (t.isEmpty = true ∧ s.isEmpty = true) := by simp [ht]
    have hts : IsPrefixOf eqF t s = false := by
      rw [IsPrefixOf, if_pos (by omega)]
    by_cases hst : IsPrefixOf eqF s t = true
    · rw [keyLt s t hse hst, keyGt t s hse2 hts hst]
      simp
    · have hst' : IsPrefixOf eqF s t = false := by simpa using hst
      rw [key s t hse hst' hts, key t s hse2 hts hst']
      exact compareLoop_antisym gtF ltF hconv hexcl s t
  · have hst : IsPrefixOf eqF s t = false := by
      rw [IsPrefixOf, if_pos (by omega)]
    have hts : IsPrefixOf eqF t s = false := by
      rw [IsPrefixOf, if_pos (by omega)]
    by_cases hse : s.isEmpty = true ∧ t.isEmpty = true
    · rw [Compare, if_pos hse, Compare, if_pos ⟨hse.2, hse.1⟩]
      simp
    · have hse2 : ¬ (t.isEmpty = true ∧ s.isEmpty = true) := by tauto
      rw [key s t hse hst hts, key t s hse2 hts hst]
      exact compareLoop_antisym gtF ltF hconv hexcl s t
  · have hs : s.isEmpty = false := by
      cases s with
      | nil => simp at hlen
      | cons a l => rfl
    have hse : ¬ (s.isEmpty = true ∧ t.isEmpty = true) := by simp [hs]
    have hse2 : ¬ (t.isEmpty = true ∧ s.isEmpty = true) := by simp [hs]
    have hst : IsPrefixOf eqF s t = false := by
      rw [IsPrefixOf, if_pos (by omega)]
    by_cases hts : IsPrefixOf eqF t s = true
    · rw [keyGt s t hse hst hts, keyLt t s hse2 hts]
      simp
    · have hts' : IsPrefixOf eqF t s = false := by simpa using hts
      rw [key s t hse hst hts', key t s hse2 hts' hst]
      exact compareLoop_antisym gtF ltF hconv hexcl s t

/-- Witness for claim C2 at the `Bool` element kind (the `Bool.Gt`/`Bool.Lt`
implementations of `ord.go`), on the slices `[true, false]` and
`[false, true]`. -/
theorem claim_C2_witness :
    Compare boolEq boolGt boolLt [true, false] [true, false] = some Ordering.eq ∧
    (Compare boolEq boolGt boolLt [true, false] [false, true] = some Ordering.gt ↔
      Compare boolEq boolGt boolLt [false, true] [true, false] = some Ordering.lt) := by
  exact claim_C2 boolEq boolGt boolLt (by decide) (by decide) [true, false] [false, true]

/-- Claim C3: the claim (and `IsSorted`'s own doc comment) says `IsSorted` is
true iff no adjacent pair has `s[i] > s[i+1]`, in particular true on
`[1,1,2,3,4,5,6,9]`.  The code tests `Lt` instead of `Gt`, so it returns
`false` on that ascending sequence (and on `[1,2,3]`, whose expected result
`true` is printed in the source's doc comment) and `true` on the strictly
descending `[3,2,1]`. -/
theorem claim_C3_code_bug :
    IsSorted ([1, 1, 2, 3, 4, 5, 6, 9] : List Int) = false ∧
    IsSorted ([3, 1, 4, 1, 5, 9, 2, 6] : List Int) = false ∧
    IsSorted ([1, 2, 3] : List Int) = false ∧
    IsSorted ([3, 2, 1] : List Int) = true := by
  refine ⟨rfl, rfl, rfl, rfl⟩

/-- Claim C5: `FlattenN` does not apply `Flatten` up to `n` times.  Its
condition is inverted: on a nested slice with `n > 0` it returns the slice
unchanged (first conjunct; `Flatten` would have produced `[1, 2]`, second and
third conjuncts), and on a non-nested slice it recurses forever — the `uint`
depth underflows at `0 - 1` — so no amount of fuel makes it return (last
conjunct). -/
theorem claim_C5_code_bug :
    (∀ fuel, FlattenN (fuel + 1) [El.seq [El.int 1], El.seq [El.int 2]] 1 =
      some [El.seq [El.int 1], El.seq [El.int 2]]) ∧
    Flatten [El.seq [El.int 1], El.seq [El.int 2]] = some [El.int 1, El.int 2] ∧
    ([El.seq [El.int 1], El.seq [El.int 2]] : List El) ≠ [El.int 1, El.int 2] ∧
    (∀ fuel n, FlattenN fuel [El.int 1] n = none) := by
  refine ⟨fun fuel => rfl, rfl, by decide, ?_⟩
  intro fuel
  induction fuel with
  | zero => intro n; rfl
  | succ fuel ih =>
    intro n
    simpa [FlattenN, IsNested, Flatten] using ih _

/-- Claim C6: the final partition of `SplitN` does not start after the
separator that ended partition `n-1`: the code returns `sl[i:]`, which starts
*at* that separator.  On the source's own doc examples:
`[1,3,2,3,4,5].SplitOnce(3)` yields `[[1],[3,2,3,4,5]]` (the doc comment
promises `[[1],[2,3,4,5]]`) and `[1,3,2,3,4,3,5].SplitN(3,3)` yields
`[[1],[2],[3,4,3,5]]` (the doc comment promises `[[1],[2],[4,3,5]]`). -/
theorem claim_C6_code_bug :
    SplitOnce (El.int 3)
        [El.int 1, El.int 3, El.int 2, El.int 3, El.int 4, El.int 5] =
      [El.seq [El.int 1], El.seq [El.int 3, El.int 2, El.int 3, El.int 4, El.int 5]] ∧
    SplitOnce (El.int 3)
        [El.int 1, El.int 3, El.int 2, El.int 3, El.int 4, El.int 5] ≠
      [El.seq [El.int 1], El.seq [El.int 2, El.int 3, El.int 4, El.int 5]] ∧
    SplitN 3 (El.int 3)
        [El.int 1, El.int 3, El.int 2, El.int 3, El.int 4, El.int 3, El.int 5] =
      [El.seq [El.int 1], El.seq [El.int 2], El.seq [El.int 3, El.int 4, El.int 3, El.int 5]] ∧
    SplitN 3 (El.int 3)
        [El.int 1, El.int 3, El.int 2, El.int 3, El.int 4, El.int 3, El.int 5] ≠
      [El.seq [El.int 1], El.seq [El.int 2], El.seq [El.int 4, El.int 3, El.int 5]] := by
  refine ⟨rfl, by decide, rfl, by decide⟩

/-- Claim C8 counterexample: for a comparand of an incomparable kind (the
`default` branch of the type switches) both `Gt` and `Lt` report `false`, yet
`Ge` and `Le` report `false` as well — not `true`, and not the negation of
`Lt`/`Gt` as the claim states. -/
theorem claim_C8_counterexample :
    Ge intEq intGt intLt [(1 : Int)] (none : Operand Int) = some false ∧
    (Lt intEq intGt intLt [(1 : Int)] (none : Operand Int)).map (fun b => !b) =
      some true ∧
    Le intEq intGt intLt [(1 : Int)] (none : Operand Int) = some false ∧
    (Gt intEq intGt intLt [(1 : Int)] (none : Operand Int)).map (fun b => !b) =
      some true := by
  refine ⟨rfl, rfl, rfl, rfl⟩

/-- Claim C8, amended: `Ge` and `Le` are the negations of `Lt` and `Gt` only
for a comparand of the receiver's own slice kind; for a comparand of any other
kind all four of `Gt`, `Lt`, `Ge`, `Le` report `false`. -/
theorem claim_C8_amended {α : Type} (eqF gtF ltF : α → α → Bool)
    (s t : List α) :
    Ge eqF gtF ltF s (some t) =
      (Lt eqF gtF ltF s (some t)).map (fun b => !b) ∧
    Le eqF gtF ltF s (some t) =
      (Gt eqF gtF ltF s (some t)).map (fun b => !b) ∧
    Gt eqF gtF ltF s (none : Operand α) = some false ∧
    Lt eqF gtF ltF s (none : Operand α) = some false ∧
    Ge eqF gtF ltF s (none : Operand α) = some false ∧
    Le eqF gtF ltF s (none : Operand α) = some false := by
  refine ⟨?_, ?_, rfl, rfl, rfl, rfl⟩ <;>
  · show (Compare eqF gtF ltF s t).map _ = ((Compare eqF gtF ltF s t).map _).map _
    cases Compare eqF gtF ltF s t with
    | none => rfl
    | some c => cases c <;> rfl

/-- `Flatten` applied to a slice holding exactly one inner slice yields that
inner slice's elements, flat.  This is what `SplitBy`, `Chunk` and `ChunkBy`
invoke on a single-partition result. -/
theorem flatten_single (c : List El) : Flatten [El.seq c] = some c := by
  rw [Flatten]
  simp [IsNested, asSeq, seqElems]

/-- When `i = size * q + c` with `c < size`, the chunk-flush test
`(i + 1) % size == 0` of `Chunk` holds exactly when the running chunk (of
length `c`) is about to reach `size` elements. -/
theorem mod_succ_flush (size q c : Nat) (hc : c < size) :
    ((size * q + c + 1) % size = 0) ↔ c + 1 = size := by
  have h1 : size * q + c + 1 = (c + 1) + size * q := by ring
  have h2 : ((c + 1) + size * q) % size = (c + 1) % size :=
    Nat.add_mul_mod_self_left (c + 1) size q
  rw [h1, h2]
  constructor
  · intro h
    by_contra hne
    have hlt : c + 1 < size := by omega
    rw [Nat.mod_eq_of_lt hlt] at h
    omega
  · intro h
    rw [h, Nat.mod_self]

/-- Unfolding equation of `chunksSpec` on a non-empty list. -/
theorem chunksSpec_cons {α : Type} (s : Nat) (x : α) (xs : List α) :
    chunksSpec (s + 1) (x :: xs) =
      (x :: xs).take (s + 1) :: chunksSpec (s + 1) ((x :: xs).drop (s + 1)) := by
  rw [chunksSpec]

/-- Unfolding equation of `chunksSpec` on the empty list. -/
theorem chunksSpec_nil {α : Type} (n : Nat) : chunksSpec (α := α) n [] = [] := by
  rw [chunksSpec]

/-- `chunksSpec` of a non-empty list is non-empty. -/
theorem chunksSpec_ne_nil {α : Type} (s : Nat) (l : List α) (h : l ≠ []) :
    chunksSpec (s + 1) l ≠ [] := by
  cases l with
  | nil => exact absurd rfl h
  | cons x xs =>
    rw [chunksSpec_cons]
    simp

/-- The buffer loop of `Chunk` computes exactly the specification-level
groups: with the loop counter at `i = size * q + |chunk|`, the produced chunks
are the `chunksSpec` groups of the buffered prefix followed by the remaining
elements. -/
theorem chunkLoop_eq (len : Nat) (s : Nat) :
    ∀ (rest : List El) (i : Nat) (chunk : List El) (q : Nat),
      len = i + rest.length → i = (s + 1) * q + chunk.length →
      chunk.length < s + 1 → (rest = [] → chunk = []) →
      chunkLoop (s + 1) len i chunk rest = chunksSpec (s + 1) (chunk ++ rest) := by
  intro rest
  induction rest with
  | nil =>
    intro i chunk q hlen hi hc hnil
    rw [hnil rfl]
    simp only [List.append_nil]
    rw [chunksSpec_nil]
    rfl
  | cons v rest ih =>
    intro i chunk q hlen hi hc hnil
    simp only [List.length_cons] at hlen
    have hflushmod : ((i + 1) % (s + 1) = 0) ↔ chunk.length + 1 = s + 1 := by
      have h := mod_succ_flush (s + 1) q chunk.length hc
      rw [← hi] at h
      exact h
    have hlast : (i = len - 1) ↔ rest = [] := by
      cases rest with
      | nil =>
        simp only [List.length_nil] at hlen
        constructor
        · intro _; rfl
        · intro _; omega
      | cons w ws =>
        simp only [List.length_cons] at hlen
        constructor
        · intro h; omega
        · intro h; exact absurd h (by simp)
    rw [chunkLoop]
    by_cases hflush : (i + 1) % (s + 1) = 0 ∨ i = len - 1
    · rw [if_pos hflush]
      by_cases hfull : chunk.length + 1 = s + 1
      · -- the chunk is full
        have hassoc : chunk ++ v :: rest = (chunk ++ [v]) ++ rest := by simp
        have htake : (chunk ++ v :: rest).take (s + 1) = chunk ++ [v] := by
          rw [hassoc]
          exact List.take_left' (by simp; omega)
        have hdrop : (chunk ++ v :: rest).drop (s + 1) = rest := by
          rw [hassoc]
          exact List.drop_left' (by simp; omega)
        have hspec : chunksSpec (s + 1) (chunk ++ v :: rest) =
            (chunk ++ [v]) :: chunksSpec (s + 1) rest := by
          cases hcv : chunk ++ v :: rest with
          | nil => exact absurd hcv (by simp)
          | cons a l =>
            rw [chunksSpec_cons, ← hcv, htake, hdrop]
        rw [hspec]
        congr 1
        have h2 := ih (i + 1) [] (q + 1) (by omega)
          (by simp only [List.length_nil]; rw [Nat.mul_succ]; omega)
          (by simp only [List.length_nil]; omega) (fun _ => rfl)
        simpa using h2
      · -- flush because of the last element, chunk not full
        have hrest : rest = [] := by
          rcases hflush with h | h
          · rw [hflushmod] at h
            exact absurd h hfull
          · rw [← hlast]; exact h
        subst hrest
        have hlen2 : (chunk ++ [v]).length ≤ s + 1 := by simp; omega
        have hspec : chunksSpec (s + 1) (chunk ++ [v]) = [chunk ++ [v]] := by
          cases h3 : chunk ++ [v] with
          | nil => exact absurd h3 (by simp)
          | cons b m =>
            rw [chunksSpec_cons, ← h3, List.take_of_length_le hlen2,
              List.drop_eq_nil_of_le hlen2, chunksSpec_nil]
        rw [hspec]
        rfl
    · rw [if_neg hflush]
      push_neg at hflush
      have hrest : rest ≠ [] := by
        intro h
        exact hflush.2 (hlast.mpr h)
      have hnotfull : chunk.length + 1 < s + 1 := by
        have h4 : ¬ (chunk.length + 1 = s + 1) := fun h => hflush.1 (hflushmod.mpr h)
        omega
      have h5 := ih (i + 1) (chunk ++ [v]) q (by omega)
        (by simp only [List.length_append, List.length_cons, List.length_nil]; omega)
        (by simpa using hnotfull) (fun h => absurd h hrest)
      rw [h5]
      congr 1
      simp

/-- The concatenation of the `chunksSpec` groups restores the list. -/
theorem chunksSpec_flatten {α : Type} (s : Nat) :
    ∀ (n : Nat) (l : List α), l.length ≤ n →
      (chunksSpec (s + 1) l).flatten = l := by
  intro n
  induction n with
  | zero =>
    intro l h
    have hl : l = [] := by
      cases l with
      | nil => rfl
      | cons x xs => simp at h
    rw [hl, chunksSpec_nil]
    rfl
  | succ n ihn =>
    intro l h
    cases l with
    | nil =>
      rw [chunksSpec_nil]
      rfl
    | cons x xs =>
      rw [chunksSpec_cons]
      simp only [List.flatten_cons]
      rw [ihn _ (by simp only [List.length_drop, List.length_cons] at h ⊢; omega)]
      exact List.take_append_drop _ _

/-- Every `chunksSpec` group is non-empty and no longer than `size`. -/
theorem chunksSpec_mem_len {α : Type} (s : Nat) :
    ∀ (n : Nat) (l : List α), l.length ≤ n →
      ∀ c ∈ chunksSpec (s + 1) l, 0 < c.length ∧ c.length ≤ s + 1 := by
  intro n
  induction n with
  | zero =>
    intro l h c hc
    have hl : l = [] := by
      cases l with
      | nil => rfl
      | cons x xs => simp at h
    rw [hl, chunksSpec_nil] at hc
    simp at hc
  | succ n ihn =>
    intro l h c hc
    cases l with
    | nil =>
      rw [chunksSpec_nil] at hc
      simp at hc
    | cons x xs =>
      rw [chunksSpec_cons] at hc
      rcases List.mem_cons.mp hc with hc1 | hc2
      · subst hc1
        constructor
        · simp
        · simp only [List.length_take]
          omega
      · exact ihn _ (by simp only [List.length_drop, List.length_cons] at h ⊢; omega) c hc2

/-- Every `chunksSpec` group except possibly the last has exactly `size`
elements. -/
theorem chunksSpec_init_len {α : Type} (s : Nat) :
    ∀ (n : Nat) (l : List α), l.length ≤ n →
      ∀ i, i + 1 < (chunksSpec (s + 1) l).length →
        ((chunksSpec (s + 1) l).getD i []).length = s + 1 := by
  intro n
  induction n with
  | zero =>
    intro l h i hi
    have hl : l = [] := by
      cases l with
      | nil => rfl
      | cons x xs => simp at h
    rw [hl, chunksSpec_nil] at hi
    simp at hi
  | succ n ihn =>
    intro l h i hi
    cases l with
    | nil =>
      rw [chunksSpec_nil] at hi
      simp at hi
    | cons x xs =>
      rw [chunksSpec_cons] at hi ⊢
      cases i with
      | zero =>
        simp only [List.getD_cons_zero, List.length_take]
        simp only [List.length_cons] at hi
        have hne : chunksSpec (s + 1) ((x :: xs).drop (s + 1)) ≠ [] := by
          intro hnil
          rw [hnil] at hi
          simp at hi
        have hdrop : (x :: xs).drop (s + 1) ≠ [] := by
          intro hnil
          rw [hnil, chunksSpec_nil] at hne
          exact hne rfl
        have hlen : s + 1 < (x :: xs).length := by
          by_contra hle
          exact hdrop (List.drop_eq_nil_of_le (by omega))
        omega
      | succ i =>
        simp only [List.getD_cons_succ]
        simp only [List.length_cons] at hi
        exact ihn _ (by simp only [List.length_drop, List.length_cons] at h ⊢; omega) i (by omega)

/-- A non-empty list no longer than `size` forms a single `chunksSpec`
group. -/
theorem chunksSpec_of_len_le {α : Type} (s : Nat) (l : List α) (h0 : l ≠ [])
    (h : l.length ≤ s + 1) : chunksSpec (s + 1) l = [l] := by
  cases l with
  | nil => exact absurd rfl h0
  | cons x xs =>
    rw [chunksSpec_cons, List.take_of_length_le h, List.drop_eq_nil_of_le h,
      chunksSpec_nil]

/-- A list longer than `size` yields at least two `chunksSpec` groups. -/
theorem chunksSpec_len_ge2 {α : Type} (s : Nat) (l : List α)
    (h : s + 1 < l.length) : 2 ≤ (chunksSpec (s + 1) l).length := by
  cases l with
  | nil => simp at h
  | cons x xs =>
    rw [chunksSpec_cons]
    simp only [List.length_cons]
    have hdrop : (x :: xs).drop (s + 1) ≠ [] := by
      intro hnil
      have := congrArg List.length hnil
      simp only [List.length_drop, List.length_nil] at this
      omega
    have := chunksSpec_ne_nil s _ hdrop
    have hpos : 0 < (chunksSpec (s + 1) ((x :: xs).drop (s + 1))).length :=
      List.length_pos.mpr this
    omega

/-- Evaluation of `Chunk`: for more than one group the result is the
`chunksSpec` groups, each wrapped as a nested slice; for at most one group
(`|l| <= size`) the result is the flat list itself (the single chunk is passed
through `Flatten`). -/
theorem Chunk_eval (s : Nat) (l : List El) :
    (s + 1 < l.length → Chunk (s + 1) l = some ((chunksSpec (s + 1) l).map El.seq)) ∧
    (l.length ≤ s + 1 → Chunk (s + 1) l = some l) := by
  have hloop : chunkLoop (s + 1) l.length 0 [] l = chunksSpec (s + 1) l := by
    have := chunkLoop_eq l.length s l 0 [] 0 (by simp) (by simp)
      (by simp only [List.length_nil]; omega) (fun _ => rfl)
    simpa using this
  constructor
  · intro h
    have hne : l.isEmpty = false := by
      cases l with
      | nil => simp at h
      | cons a m => rfl
    rw [Chunk, if_neg (by omega), if_neg (by simp [hne])]
    simp only [hloop]
    rw [if_neg (by have := chunksSpec_len_ge2 s l h; omega)]
  · intro h
    by_cases h0 : l.isEmpty = true
    · rw [Chunk, if_neg (by omega), if_pos h0]
      rw [List.isEmpty_iff] at h0
      rw [h0]
    · rw [Chunk, if_neg (by omega), if_neg h0]
      simp only [hloop]
      have h0' : l ≠ [] := by
        intro hnil
        rw [hnil] at h0
        exact h0 rfl
      rw [chunksSpec_of_len_le s l h0' h]
      rw [if_pos (by rfl)]
      simp only [List.map_cons, List.map_nil]
      exact flatten_single l

/-- When the predicate rejects every element, the `SplitBy` loop produces the
single partition `buf ++ rest`. -/
theorem splitByLoop_all_false (f : El → Bool) :
    ∀ (rest buf : List El), (∀ x ∈ rest, f x = false) →
      splitByLoop f buf rest = [buf ++ rest] := by
  intro rest
  induction rest with
  | nil =>
    intro buf h
    simp [splitByLoop]
  | cons v r ih =>
    intro buf h
    have hv : f v = false := h v (List.mem_cons_self v r)
    rw [splitByLoop, hv]
    simp only [Bool.false_eq_true, if_false]
    rw [ih (buf ++ [v]) (fun x hx => h x (List.mem_cons_of_mem v hx))]
    simp

/-- When the predicate accepts every adjacent pair, the `ChunkBy` loop
produces the single chunk `chunk ++ rest`. -/
theorem chunkByLoop_chain (f : El → El → Bool) :
    ∀ (rest : List El) (prev : El) (chunk : List El),
      List.Chain' (fun a b => f a b = true) (prev :: rest) →
      chunkByLoop f prev chunk rest = [chunk ++ rest] := by
  intro rest
  induction rest with
  | nil =>
    intro prev chunk _
    simp [chunkByLoop]
  | cons v r ih =>
    intro prev chunk hchain
    rw [List.chain'_cons] at hchain
    rw [chunkByLoop, if_neg (fun hn => hn hchain.1)]
    rw [ih v (chunk ++ [v]) hchain.2]
    simp

/-- Claim C10: whenever `SplitBy`, `Chunk` or `ChunkBy` produces exactly one
partition, the operation returns the flat elements of that partition rather
than a singleton wrapping it: a predicate false on every element makes
`SplitBy` return a flat copy; `Chunk(size)` with `size >= length` returns the
elements un-nested; a pair-predicate true on every adjacent pair makes
`ChunkBy` return a flat copy; and in general a single produced partition `c`
makes `SplitBy`/`ChunkBy` return `c`'s elements flat. -/
theorem claim_C10 :
    (∀ (f : El → Bool) (sl : List El), (∀ x ∈ sl, f x = false) →
      SplitBy f sl = some sl) ∧
    (∀ (size : Nat) (sl : List El), 0 < size → sl.length ≤ size →
      Chunk size sl = some sl) ∧
    (∀ (f : El → El → Bool) (sl : List El),
      List.Chain' (fun a b => f a b = true) sl → ChunkBy f sl = some sl) ∧
    (∀ (f : El → Bool) (sl c : List El), splitByLoop f [] sl = [c] →
      SplitBy f sl = some c) ∧
    (∀ (f : El → El → Bool) (v : El) (rest c : List El),
      chunkByLoop f v [v] rest = [c] → ChunkBy f (v :: rest) = some c) := by
  have hsplit1 : ∀ (f : El → Bool) (sl c : List El), splitByLoop f [] sl = [c] →
      SplitBy f sl = some c := by
    intro f sl c h
    rw [SplitBy]
    simp only [h, List.length_cons, List.length_nil, if_pos]
    simp only [List.map_cons, List.map_nil]
    exact flatten_single c
  have hchunkby1 : ∀ (f : El → El → Bool) (v : El) (rest c : List El),
      chunkByLoop f v [v] rest = [c] → ChunkBy f (v :: rest) = some c := by
    intro f v rest c h
    rw [ChunkBy]
    simp only [h, List.length_cons, List.length_nil, if_pos]
    simp only [List.map_cons, List.map_nil]
    exact flatten_single c
  refine ⟨?_, ?_, ?_, hsplit1, hchunkby1⟩
  · intro f sl h
    have hloop := splitByLoop_all_false f sl [] h
    simp only [List.nil_append] at hloop
    exact hsplit1 f sl sl hloop
  · intro size sl hs hle
    obtain ⟨s, rfl⟩ : ∃ s, size = s + 1 := ⟨size - 1, by omega⟩
    exact (Chunk_eval s sl).2 hle
  · intro f sl hchain
    cases sl with
    | nil => rfl
    | cons v rest =>
      have hloop := chunkByLoop_chain f rest v [v] hchain
      have hc : [v] ++ rest = v :: rest := by simp
      rw [hc] at hloop
      exact hchunkby1 f v rest (v :: rest) hloop

/-- Witness for claim C10 on `[1, 2]`: an all-false predicate for `SplitBy`,
`size = 5 >= 2` for `Chunk`, and an all-true pair predicate for `ChunkBy`,
each returning the flat slice. -/
theorem claim_C10_witness :
    SplitBy (fun _ => false) [El.int 1, El.int 2] = some [El.int 1, El.int 2] ∧
    Chunk 5 [El.int 1, El.int 2] = some [El.int 1, El.int 2] ∧
    ChunkBy (fun _ _ => true) [El.int 1, El.int 2] = some [El.int 1, El.int 2] := by
  refine ⟨claim_C10.1 _ _ (by intro x _; rfl),
    claim_C10.2.1 5 _ (by omega) (by simp),
    claim_C10.2.2.1 _ _ ?_⟩
  constructor
  · rfl
  · constructor

/-- Claim C7 counterexample: `Chunk(2)` on `[1, 2]` produces exactly one
group, and the code returns the flat elements `[1, 2]`, not the list of
groups `[[1, 2]]` that the claim describes. -/
theorem claim_C7_counterexample :
    Chunk 2 [El.int 1, El.int 2] = some [El.int 1, El.int 2] ∧
    [El.int 1, El.int 2] ≠ [El.seq [El.int 1, El.int 2]] :=
  ⟨rfl, fun h => by cases h⟩

/-- Claim C7, amended: for `size >= 1`, the groups computed by `Chunk(size)`
are the non-overlapping groups of exactly `size` consecutive elements in
order, only the last group possibly shorter (but never empty), and their
concatenation equals the input.  When there are at least two groups
(`size < length`) the result is that list of groups; with at most one group
(`length <= size`) the result is the flat elements instead (see claim C10).
The claim's two examples hold as stated. -/
theorem claim_C7_amended (size : Nat) (hs : 0 < size) (l : List El) :
    (size < l.length →
      Chunk size l = some ((chunksSpec size l).map El.seq) ∧
      (chunksSpec size l).flatten = l ∧
      (∀ c ∈ chunksSpec size l, 0 < c.length ∧ c.length ≤ size) ∧
      (∀ i, i + 1 < (chunksSpec size l).length →
        ((chunksSpec size l).getD i []).length = size)) ∧
    (l.length ≤ size → Chunk size l = some l) ∧
    Chunk 2 [El.int 1, El.int 2, El.int 3, El.int 4] =
      some [El.seq [El.int 1, El.int 2], El.seq [El.int 3, El.int 4]] ∧
    Chunk 3 [El.int 1, El.int 2, El.int 3, El.int 4] =
      some [El.seq [El.int 1, El.int 2, El.int 3], El.seq [El.int 4]] := by
  obtain ⟨s, rfl⟩ : ∃ s, size = s + 1 := ⟨size - 1, by omega⟩
  refine ⟨?_, (Chunk_eval s l).2, rfl, rfl⟩
  intro h
  exact ⟨(Chunk_eval s l).1 h, chunksSpec_flatten s l.length l (le_refl _),
    chunksSpec_mem_len s l.length l (le_refl _),
    chunksSpec_init_len s l.length l (le_refl _)⟩

/-- Witness for the amended claim C7: `Chunk 2` on `[1, 2, 3, 4]` returns the
`chunksSpec` groups, and `Chunk 5` on `[1, 2]` returns the flat slice. -/
theorem claim_C7_witness :
    Chunk 2 [El.int 1, El.int 2, El.int 3, El.int 4] =
      some ((chunksSpec 2 [El.int 1, El.int 2, El.int 3, El.int 4]).map El.seq) ∧
    Chunk 5 [El.int 1, El.int 2] = some [El.int 1, El.int 2] := by
  have h1 := claim_C7_amended 2 (by omega) [El.int 1, El.int 2, El.int 3, El.int 4]
  have h2 := claim_C7_amended 5 (by omega) [El.int 1, El.int 2]
  exact ⟨(h1.1 (by simp)).1, h2.2.1 (by simp)⟩

/-- Swapping two positions preserves the length. -/
theorem length_swapL {α : Type} [Inhabited α] (l : List α) (i j : Nat) :
    (swapL l i j).length = l.length := by
  rw [swapL, List.length_set, List.length_set]

/-- Reading the position just written. -/
theorem getE_set_self {α : Type} [Inhabited α] (l : List α) (i : Nat) (a : α)
    (h : i < l.length) : getE (l.set i a) i = a := by
  rw [getE, List.getD_eq_getElem?_getD, List.getElem?_set_self (by omega)]
  rfl

/-- Writing one position leaves every other read unchanged. -/
theorem getE_set_ne {α : Type} [Inhabited α] (l : List α) (i j : Nat) (a : α)
    (h : i ≠ j) : getE (l.set i a) j = getE l j := by
  rw [getE, getE, List.getD_eq_getElem?_getD, List.getD_eq_getElem?_getD,
    List.getElem?_set_ne h]

/-- After a swap the first position holds the second position's old value. -/
theorem getE_swapL_left {α : Type} [Inhabited α] (l : List α) (i j : Nat)
    (hi : i < l.length) : getE (swapL l i j) i = getE l j := by
  rw [swapL]
  by_cases hij : i = j
  · subst hij
    rw [getE_set_self _ _ _ (by rw [List.length_set]; omega)]
  · rw [getE_set_ne _ _ _ _ (fun h => hij h.symm), getE_set_self _ _ _ hi]

/-- After a swap the second position holds the first position's old value. -/
theorem getE_swapL_right {α : Type} [Inhabited α] (l : List α) (i j : Nat)
    (hj : j < l.length) : getE (swapL l i j) j = getE l i := by
  rw [swapL, getE_set_self _ _ _ (by rw [List.length_set]; omega)]

/-- A swap leaves every other position unchanged. -/
theorem getE_swapL_other {α : Type} [Inhabited α] (l : List α) (i j k : Nat)
    (hik : k ≠ i) (hjk : k ≠ j) : getE (swapL l i j) k = getE l k := by
  rw [swapL, getE_set_ne _ _ _ _ (fun h => hjk h.symm),
    getE_set_ne _ _ _ _ (fun h => hik h.symm)]

/-- Writing back the value already stored changes nothing. -/
theorem set_getE_self {α : Type} [Inhabited α] (l : List α) (i : Nat)
    (h : i < l.length) : l.set i (getE l i) = l := by
  apply List.ext_getElem?
  intro n
  by_cases hn : n = i
  · subst hn
    rw [List.getElem?_set_self (by omega), List.getElem?_eq_getElem h]
    rw [getE, List.getD_eq_getElem?_getD, List.getElem?_eq_getElem h]
    rfl
  · rw [List.getElem?_set_ne (fun hh => hn hh.symm)]

/-- In bounds, `getE` is the list element. -/
theorem getE_eq_getElem {α : Type} [Inhabited α] (l : List α) (i : Nat)
    (h : i < l.length) : getE l i = l[i] := by
  rw [getE, List.getD_eq_getElem?_getD, List.getElem?_eq_getElem h]
  rfl

/-- Exchanging the head with the element at position `m` of the tail is a
permutation. -/
theorem cons_set_perm {α : Type} [Inhabited α] (x : α) (xs : List α) (m : Nat)
    (hm : m < xs.length) : (getE xs m :: xs.set m x).Perm (x :: xs) := by
  have hxs : xs = xs.take m ++ getE xs m :: xs.drop (m + 1) := by
    conv_lhs => rw [← List.take_append_drop m xs]
    congr 1
    rw [getE_eq_getElem _ _ hm]
    exact List.drop_eq_getElem_cons hm
  have hset : xs.set m x = xs.take m ++ x :: xs.drop (m + 1) := by
    rw [List.set_eq_take_append_cons_drop, if_pos hm]
  rw [hset]
  conv_rhs => rw [hxs]
  exact (List.Perm.cons _ List.perm_middle).trans
    ((List.Perm.swap _ _ _).trans (List.Perm.cons _ List.perm_middle.symm))

/-- An in-bounds swap permutes the list (case `i < j`). -/
theorem swapL_perm_lt {α : Type} [Inhabited α] (l : List α) (i j : Nat)
    (hij : i < j) (hj : j < l.length) : (swapL l i j).Perm l := by
  have hi : i < l.length := by omega
  have hm : j - i - 1 < (l.drop (i + 1)).length := by
    rw [List.length_drop]
    omega
  have key1 : getE l j = getE (l.drop (i + 1)) (j - i - 1) := by
    rw [getE_eq_getElem _ _ hj, getE_eq_getElem _ _ hm]
    rw [List.getElem_drop]
    congr 1
    omega
  have key2 : l = l.take i ++ getE l i :: l.drop (i + 1) := by
    conv_lhs => rw [← List.take_append_drop i l]
    congr 1
    rw [getE_eq_getElem _ _ hi]
    exact List.drop_eq_getElem_cons hi
  have hlt : (l.take i).length = i := by
    rw [List.length_take]
    omega
  have hstep1 : l.set i (getE l j) = l.take i ++ getE l j :: l.drop (i + 1) := by
    rw [List.set_eq_take_append_cons_drop, if_pos hi]
  have hstep2 : swapL l i j =
      l.take i ++ getE l j :: (l.drop (i + 1)).set (j - i - 1) (getE l i) := by
    rw [swapL, hstep1, List.set_append_right _ _ (by omega), hlt]
    congr 1
    have hsucc : j - i = (j - i - 1) + 1 := by omega
    rw [hsucc, List.set_cons_succ]
    simp only [Nat.add_sub_cancel]
  rw [hstep2, key1]
  conv_rhs => rw [key2]
  exact List.Perm.append_left _ (cons_set_perm (getE l i) (l.drop (i + 1)) _ hm)

/-- An in-bounds swap permutes the list. -/
theorem swapL_perm {α : Type} [Inhabited α] (l : List α) (i j : Nat)
    (hi : i < l.length) (hj : j < l.length) : (swapL l i j).Perm l := by
  rcases Nat.lt_trichotomy i j with hij | hij | hij
  · exact swapL_perm_lt l i j hij hj
  · subst hij
    rw [swapL, List.set_set, set_getE_self _ _ hi]
  · have h1 : swapL l i j = swapL l j i := by
      rw [swapL, swapL, List.set_comm _ _ _ (by omega)]
    rw [h1]
    exact swapL_perm_lt l j i hij hi

/-- Loop invariant of `partition`'s scan, by induction on the loop: the result
is a permutation that only rearranges positions in `[low, high)`, the returned
split point `k` lies in `[k0, high]`, every position left of it holds a value
`Lt` the pivot, every position from it up to `high` holds a value not `Lt` the
pivot, and any property of the values in the window is preserved. -/
theorem partLoop_spec {α : Type} [Inhabited α] [LT α]
    [DecidableRel (α := α) (· < ·)] (low : Nat) :
    ∀ (l : List α) (pivot : α) (k j high : Nat),
      low ≤ k → k ≤ j → j ≤ high → high ≤ l.length →
      (∀ i, low ≤ i → i < k → getE l i < pivot) →
      (∀ i, k ≤ i → i < j → ¬ getE l i < pivot) →
      (partLoop l pivot k j high).1.length = l.length ∧
      (partLoop l pivot k j high).1.Perm l ∧
      k ≤ (partLoop l pivot k j high).2 ∧
      (partLoop l pivot k j high).2 ≤ high ∧
      (∀ i, i < low ∨ high ≤ i →
        getE (partLoop l pivot k j high).1 i = getE l i) ∧
      (∀ i, low ≤ i → i < (partLoop l pivot k j high).2 →
        getE (partLoop l pivot k j high).1 i < pivot) ∧
      (∀ i, (partLoop l pivot k j high).2 ≤ i → i < high →
        ¬ getE (partLoop l pivot k j high).1 i < pivot) ∧
      (∀ (Q : α → Prop), (∀ i, low ≤ i → i < high → Q (getE l i)) →
        ∀ i, low ≤ i → i < high → Q (getE (partLoop l pivot k j high).1 i)) := by
  intro l pivot k j high
  induction l, pivot, k, j, high using partLoop.induct with
  | case1 l pivot k j high hjh hlt ih =>
    intro hlk hkj hjh2 hhl inv1 inv2
    have hkl : k < l.length := by omega
    have hjl : j < l.length := by omega
    have hlen' : (swapL l k j).length = l.length := length_swapL l k j
    have inv1' : ∀ i, low ≤ i → i < k + 1 → getE (swapL l k j) i < pivot := by
      intro i h1 h2
      by_cases hik : i = k
      · subst hik
        rw [getE_swapL_left _ _ _ hkl]
        exact hlt
      · have hij : i ≠ j := by omega
        rw [getE_swapL_other _ _ _ _ hik hij]
        exact inv1 i h1 (by omega)
    have inv2' : ∀ i, k + 1 ≤ i → i < j + 1 → ¬ getE (swapL l k j) i < pivot := by
      intro i h1 h2
      by_cases hij : i = j
      · subst hij
        rw [getE_swapL_right _ _ _ hjl]
        exact inv2 k (le_refl k) (by omega)
      · have hik : i ≠ k := by omega
        rw [getE_swapL_other _ _ _ _ hik hij]
        exact inv2 i (by omega) (by omega)
    obtain ⟨rlen, rperm, rk, rh, rout, rinv1, rinv2, rQ⟩ :=
      ih (by omega) (by omega) (by omega) (by rw [hlen']; omega) inv1' inv2'
    rw [partLoop, if_pos hjh, if_pos hlt]
    refine ⟨rlen.trans hlen', rperm.trans (swapL_perm l k j hkl hjl),
      by omega, rh, ?_, rinv1, rinv2, ?_⟩
    · intro i hi
      rw [rout i hi]
      exact getE_swapL_other _ _ _ _ (by omega) (by omega)
    · intro Q hQ i h1 h2
      refine rQ Q ?_ i h1 h2
      intro i2 h3 h4
      by_cases hik : i2 = k
      · subst hik
        rw [getE_swapL_left _ _ _ hkl]
        exact hQ j (by omega) (by omega)
      · by_cases hij : i2 = j
        · subst hij
          rw [getE_swapL_right _ _ _ hjl]
          exact hQ k (by omega) (by omega)
        · rw [getE_swapL_other _ _ _ _ hik hij]
          exact hQ i2 h3 h4
  | case2 l pivot k j high hjh hlt ih =>
    intro hlk hkj hjh2 hhl inv1 inv2
    have inv2' : ∀ i, k ≤ i → i < j + 1 → ¬ getE l i < pivot := by
      intro i h1 h2
      by_cases hij : i = j
      · subst hij
        exact hlt
      · exact inv2 i h1 (by omega)
    obtain ⟨rlen, rperm, rk, rh, rout, rinv1, rinv2, rQ⟩ :=
      ih hlk (by omega) (by omega) hhl inv1 inv2'
    rw [partLoop, if_pos hjh, if_neg hlt]
    exact ⟨rlen, rperm, rk, rh, rout, rinv1, rinv2, rQ⟩
  | case3 l pivot k j high hjh =>
    intro hlk hkj hjh2 hhl inv1 inv2
    have hje : j = high := by omega
    rw [partLoop, if_neg hjh]
    refine ⟨rfl, List.Perm.refl l, le_refl k, by omega, fun i _ => rfl, ?_, ?_, ?_⟩
    · intro i h1 h2
      exact inv1 i h1 h2
    · intro i h1 h2
      exact inv2 i h1 (by omega)
    · intro Q hQ i h1 h2
      exact hQ i h1 h2

/-- Specification of `Slice.partition`: the result is a permutation touching
only `[low, high]`, the pivot lands at the returned position `p` in
`[low, high]`, everything left of `p` is `Lt` the pivot, nothing right of `p`
(through `high`) is `Lt` the pivot, and any property of the window's values is
preserved. -/
theorem partition_spec {α : Type} [Inhabited α] [LT α]
    [DecidableRel (α := α) (· < ·)] (l : List α) (low high : Nat)
    (hlh : low ≤ high) (hhl : high < l.length) :
    (partition l low high).1.length = l.length ∧
    (partition l low high).1.Perm l ∧
    low ≤ (partition l low high).2 ∧ (partition l low high).2 ≤ high ∧
    (∀ i, i < low ∨ high < i → getE (partition l low high).1 i = getE l i) ∧
    (∀ i, low ≤ i → i < (partition l low high).2 →
      getE (partition l low high).1 i <
        getE (partition l low high).1 (partition l low high).2) ∧
    (∀ i, (partition l low high).2 < i → i ≤ high →
      ¬ getE (partition l low high).1 i <
        getE (partition l low high).1 (partition l low high).2) ∧
    (∀ (Q : α → Prop), (∀ i, low ≤ i → i ≤ high → Q (getE l i)) →
      ∀ i, low ≤ i → i ≤ high → Q (getE (partition l low high).1 i)) := by
  obtain ⟨plen, pperm, pk, ph, pout, pinv1, pinv2, pQ⟩ :=
    partLoop_spec low l (getE l high) low low high (le_refl low) (le_refl low)
      hlh (by omega) (fun i h1 h2 => absurd h2 (by omega))
      (fun i h1 h2 => absurd h2 (by omega))
  have hunfold : partition l low high =
      (swapL (partLoop l (getE l high) low low high).1
        (partLoop l (getE l high) low low high).2 high,
       (partLoop l (getE l high) low low high).2) := by
    rw [partition]
  rw [hunfold]
  set l1 := (partLoop l (getE l high) low low high).1 with hl1
  set p := (partLoop l (getE l high) low low high).2 with hp
  have hplen : p < l1.length := by omega
  have hhlen : high < l1.length := by omega
  have hpix : getE (swapL l1 p high) p = getE l high := by
    rw [getE_swapL_left _ _ _ hplen]
    exact pout high (Or.inr (le_refl high))
  refine ⟨?_, ?_, pk, ph, ?_, ?_, ?_, ?_⟩
  · rw [length_swapL]
    exact plen
  · exact (swapL_perm l1 p high hplen hhlen).trans pperm
  · intro i hi
    have hip : i ≠ p := by omega
    have hih : i ≠ high := by omega
    rw [getE_swapL_other _ _ _ _ hip hih]
    exact pout i (by omega)
  · intro i h1 h2
    rw [hpix]
    have hip : i ≠ p := by omega
    have hih : i ≠ high := by omega
    rw [getE_swapL_other _ _ _ _ hip hih]
    exact pinv1 i h1 h2
  · intro i h1 h2
    rw [hpix]
    by_cases hih : i = high
    · subst hih
      rw [getE_swapL_right _ _ _ hhlen]
      exact pinv2 p (le_refl p) (by omega)
    · have hip : i ≠ p := by omega
      rw [getE_swapL_other _ _ _ _ hip hih]
      exact pinv2 i (by omega) (by omega)
  · intro Q hQ i h1 h2
    have hQ1 : ∀ i2, low ≤ i2 → i2 ≤ high → Q (getE l1 i2) := by
      intro i2 h3 h4
      by_cases hih : i2 = high
      · subst hih
        rw [pout i2 (Or.inr (le_refl i2))]
        exact hQ i2 h3 h4
      · exact pQ Q (fun i3 h5 h6 => hQ i3 h5 (by omega)) i2 h3 (by omega)
    by_cases hip : i = p
    · subst hip
      rw [getE_swapL_left _ _ _ hplen]
      exact hQ1 high hlh (le_refl high)
    · by_cases hih : i = high
      · subst hih
        rw [getE_swapL_right _ _ _ hhlen]
        exact hQ1 p (by omega) (by omega)
      · rw [getE_swapL_other _ _ _ _ hip hih]
        exact hQ1 i h1 h2

/-- Unfolding of `quickSort` in the recursive case. -/
theorem quickSort_unfold {α : Type} [Inhabited α] [LT α]
    [DecidableRel (α := α) (· < ·)] (l : List α) (low high : Nat)
    (h : low < high) :
    quickSort l low high =
      quickSort (quickSort (partition l low high).1 low
        ((partition l low high).2 - 1)) ((partition l low high).2 + 1) high := by
  rw [quickSort, if_pos h]

/-- `quickSort` does nothing unless `low < high`. -/
theorem quickSort_base {α : Type} [Inhabited α] [LT α]
    [DecidableRel (α := α) (· < ·)] (l : List α) (low high : Nat)
    (h : ¬ low < high) : quickSort l low high = l := by
  rw [quickSort, if_neg h]

/-- Specification of `Slice.quickSort` on a linearly ordered element kind:
the result is a permutation of the input that only rearranges positions inside
`[low, high]`, preserves any property of the window's values, and is
monotone across the window. -/
theorem quickSort_spec {α : Type} [Inhabited α] [LinearOrder α] :
    ∀ (l : List α) (low high : Nat), high < l.length →
      (quickSort l low high).length = l.length ∧
      (quickSort l low high).Perm l ∧
      (∀ i, i < low ∨ high < i → getE (quickSort l low high) i = getE l i) ∧
      (∀ (Q : α → Prop), (∀ i, low ≤ i → i ≤ high → Q (getE l i)) →
        ∀ i, low ≤ i → i ≤ high → Q (getE (quickSort l low high) i)) ∧
      (∀ i j, low ≤ i → i ≤ j → j ≤ high →
        getE (quickSort l low high) i ≤ getE (quickSort l low high) j) := by
  intro l low high
  induction l, low, high using quickSort.induct with
  | case2 l low high h =>
    intro hhl
    rw [quickSort_base l low high h]
    refine ⟨rfl, List.Perm.refl l, fun i _ => rfl, fun Q hQ i h1 h2 => hQ i h1 h2, ?_⟩
    intro i j h1 h2 h3
    have hij : i = j := by omega
    rw [hij]
  | case1 l low high h r iha ihb ihc =>
    intro hhl
    have hrdef : r = partition l low high := rfl
    rw [hrdef] at ihc
    clear iha
    have ih1 := ihb
    have ih2 := ihc
    clear ihb ihc
    obtain ⟨PSlen, PSperm, PSlow, PShigh, PSout, PSlt, PSge, PSQ⟩ :=
      partition_spec l low high (by omega) hhl
    set l2 := (partition l low high).1 with hl2
    set p := (partition l low high).2 with hp
    set piv := getE l2 p with hpiv
    obtain ⟨q1len, q1perm, q1out, q1Q, q1sorted⟩ := ih1 (by omega)
    set qs1 := quickSort l2 low (p - 1) with hqs1
    -- facts about qs1 relative to l2
    have hq1ge : ∀ i, p < i → getE qs1 i = getE l2 i := by
      intro i hi
      exact q1out i (Or.inr (by omega))
    have hq1atp : getE qs1 p = getE l2 p := by
      by_cases hpl : p = low
      · rw [hqs1, quickSort_base _ _ _ (by omega)]
      · exact q1out p (Or.inr (by omega))
    have hq1less : ∀ i, low ≤ i → i < p → getE qs1 i < piv := by
      by_cases hpl : p = low
      · intro i h1 h2
        omega
      · intro i h1 h2
        exact q1Q (fun a => a < piv) (fun i2 h3 h4 => PSlt i2 h3 (by omega))
          i h1 (by omega)
    have hq1sorted : ∀ i j, low ≤ i → i ≤ j → j < p →
        getE qs1 i ≤ getE qs1 j := by
      by_cases hpl : p = low
      · intro i j h1 h2 h3
        omega
      · intro i j h1 h2 h3
        exact q1sorted i j h1 h2 (by omega)
    have hq1win : ∀ (Q : α → Prop), (∀ i, low ≤ i → i ≤ high → Q (getE l2 i)) →
        ∀ i, low ≤ i → i ≤ high → Q (getE qs1 i) := by
      intro Q hQ i h1 h2
      by_cases hip : p ≤ i
      · by_cases hpl : p = low
        · rw [hqs1, quickSort_base _ _ _ (by omega)]
          exact hQ i h1 h2
        · rw [q1out i (Or.inr (by omega))]
          exact hQ i h1 h2
      · exact q1Q Q (fun i2 h3 h4 => hQ i2 h3 (by omega)) i h1 (by omega)
    -- facts about the second recursive call
    obtain ⟨q2len, q2perm, q2out, q2Q, q2sorted⟩ := ih2 (by omega)
    rw [quickSort_unfold l low high h]
    set r := quickSort qs1 (p + 1) high with hr
    have hrle : ∀ i, i ≤ p → getE r i = getE qs1 i := by
      intro i hi
      exact q2out i (Or.inl (by omega))
    have hrp : getE r p = piv := by
      rw [hrle p (le_refl p), hq1atp]
    have hrless : ∀ i, low ≤ i → i < p → getE r i < piv := by
      intro i h1 h2
      rw [hrle i (by omega)]
      exact hq1less i h1 h2
    have hrge : ∀ i, p < i → i ≤ high → piv ≤ getE r i := by
      intro i h1 h2
      refine q2Q (fun a => piv ≤ a) ?_ i (by omega) h2
      intro i2 h3 h4
      rw [hq1ge i2 (by omega)]
      exact not_lt.mp (PSge i2 (by omega) h4)
    have hrsorted1 : ∀ i j, low ≤ i → i ≤ j → j < p →
        getE r i ≤ getE r j := by
      intro i j h1 h2 h3
      rw [hrle i (by omega), hrle j (by omega)]
      exact hq1sorted i j h1 h2 h3
    refine ⟨?_, ?_, ?_, ?_, ?_⟩
    · rw [q2len, q1len, PSlen]
    · exact (q2perm.trans q1perm).trans PSperm
    · intro i hi
      rw [q2out i (by rcases hi with h1 | h1; exact Or.inl (by omega); exact Or.inr h1)]
      rw [q1out i (by rcases hi with h1 | h1; exact Or.inl h1; exact Or.inr (by omega))]
      exact PSout i hi
    · intro Q hQ i h1 h2
      have hQ2 : ∀ i2, low ≤ i2 → i2 ≤ high → Q (getE qs1 i2) :=
        hq1win Q (PSQ Q hQ)
      by_cases hip : i ≤ p
      · rw [hrle i hip]
        exact hQ2 i h1 h2
      · exact q2Q Q (fun i2 h3 h4 => hQ2 i2 (by omega) h4) i (by omega) h2
    · intro i j h1 h2 h3
      rcases Nat.lt_trichotomy j p with hjp | hjp | hjp
      · exact hrsorted1 i j h1 h2 hjp
      · rcases Nat.lt_or_ge i j with hij | hij
        · rw [hjp, hrp]
          exact le_of_lt (hrless i h1 (by omega))
        · have hij2 : i = j := by omega
          rw [hij2]
      · rcases Nat.lt_trichotomy i p with hip | hip | hip
        · exact le_of_lt (lt_of_lt_of_le (hrless i h1 hip) (hrge j hjp h3))
        · subst hip
          rw [hrp]
          exact hrge j hjp h3
        · exact q2sorted i j (by omega) h2 h3

/-- Claim C4: `Sort` reorders the sequence into a permutation of its elements
such that no element is greater than its successor, and on
`[3,1,4,1,5,9,2,6]` it yields `[1,1,2,3,4,5,6,9]`.  Proved for the `Int`
element kind, whose `Lt` capability is the standard order used by
`partition`. -/
theorem claim_C4 (l : List Int) :
    (Sort' l).Perm l ∧
    (∀ i, i + 1 < (Sort' l).length →
      ¬ (Sort' l).getD i 0 > (Sort' l).getD (i + 1) 0) ∧
    Sort' ([3, 1, 4, 1, 5, 9, 2, 6] : List Int) = [1, 1, 2, 3, 4, 5, 6, 9] := by
  have hd : (default : Int) = 0 := rfl
  have hex : Sort' ([3, 1, 4, 1, 5, 9, 2, 6] : List Int) =
      [1, 1, 2, 3, 4, 5, 6, 9] := by
    simp [Sort', quickSort, partition, partLoop, swapL, getE]
  by_cases hnil : l = []
  · subst hnil
    have hbase : Sort' ([] : List Int) = [] := by
      rw [Sort']
      rw [quickSort_base _ _ _ (by simp)]
    refine ⟨by rw [hbase], ?_, hex⟩
    intro i hi
    rw [hbase] at hi
    simp at hi
  · have hlen : 0 < l.length := List.length_pos.mpr hnil
    obtain ⟨qlen, qperm, qout, qQ, qsorted⟩ :=
      quickSort_spec l 0 (l.length - 1) (by omega)
    refine ⟨qperm, ?_, hex⟩
    intro i hi
    rw [Sort'] at hi ⊢
    rw [qlen] at hi
    have hle := qsorted i (i + 1) (by omega) (by omega) (by omega)
    rw [getE, getE, hd] at hle
    exact not_lt.mpr hle

end Slice
